import Mathlib

/-!
A shallow embedding of `src/exe2.cpp` (tngngn/stl2mtl): an STL → MITL
text-rewriting pipeline.  Strings are modelled as `String` / `List Char`
(the inputs of interest are ASCII, where C++ bytes and Lean characters
coincide); the C++ `double` arithmetic of the signal synthesizer is
modelled by exact rationals (`ℚ`), and `std::set<int>` by a sorted,
duplicate-free `List ℤ`.  The fixed regular expressions of the source are
embedded as deterministic scanners; for each of them greedy maximal-munch
matching coincides with ECMAScript backtracking semantics because the
adjacent character classes are disjoint.  Fallible C++ code is modelled
with `Option`: `std::stod` throws `std::invalid_argument` on a bound with
no digits and `std::out_of_range` on a bound outside the `double` range
(see `stodInRange`), both uncaught.
-/

set_option maxRecDepth 10000
set_option exponentiation.threshold 1200

namespace Stl2Mtl

/-! ### Character classes of the ECMAScript regexes (ASCII fragment) -/

/-- ECMAScript `\w` = `[A-Za-z0-9_]`. -/
def isWordChar (c : Char) : Bool :=
  let n := c.toNat
  (decide (97 ≤ n) && decide (n ≤ 122)) ||
  (decide (65 ≤ n) && decide (n ≤ 90)) ||
  (decide (48 ≤ n) && decide (n ≤ 57)) ||
  decide (n = 95)

/-- ECMAScript `\s` (ASCII fragment: space, tab, LF, VT, FF, CR). -/
def isSpaceChar (c : Char) : Bool :=
  c == ' ' || c == '\t' || c == '\n' || c == '\x0b' || c == '\x0c' || c == '\r'

/-- ECMAScript `\d` = `[0-9]`. -/
def isDigitChar (c : Char) : Bool :=
  decide (48 ≤ c.toNat) && decide (c.toNat ≤ 57)

/-- The class `[\d.]` used for numeric bounds in both regexes of the source. -/
def isDigitDot (c : Char) : Bool :=
  isDigitChar c || c == '.'

/-- The relational characters `[<>]` of the proposition regex. -/
def isRelChar (c : Char) : Bool :=
  c == '<' || c == '>'

/-! ### `extractAtomicPropositions` (src/exe2.cpp lines 11-22)

The source iterates `std::sregex_iterator` matches of
`(\w+\s*[<>]=?\s*[\d\.]+)` over the formula: leftmost, non-overlapping,
greedy.  `matchProp` decides whether the pattern matches at the head of the
list (returning the matched text and the remainder); the scanner tries each
position left to right and resumes after each match. -/

/-- Anchored match of `\w+\s*[<>]=?\s*[\d\.]+` at the head of `s`;
returns `(matched text, rest)`. -/
def matchProp (s : List Char) : Option (List Char × List Char) :=
  let w := s.takeWhile isWordChar
  let r1 := s.dropWhile isWordChar
  if w.isEmpty then none else
  let sp1 := r1.takeWhile isSpaceChar
  let r2 := r1.dropWhile isSpaceChar
  match r2 with
  | [] => none
  | c :: r3 =>
    if isRelChar c then
      let er :=
        match r3 with
        | '=' :: r4 => (['='], r4)
        | _ => (([] : List Char), r3)
      let sp2 := er.2.takeWhile isSpaceChar
      let r5 := er.2.dropWhile isSpaceChar
      let num := r5.takeWhile isDigitDot
      let r6 := r5.dropWhile isDigitDot
      if num.isEmpty then none
      else some (w ++ sp1 ++ c :: (er.1 ++ sp2 ++ num), r6)
    else none

/-- Left-to-right non-overlapping scan for `matchProp` matches.  The fuel is
always instantiated with the length of the list, which suffices since every
step consumes at least one character. -/
def scanProps : Nat → List Char → List (List Char)
  | 0, _ => []
  | _ + 1, [] => []
  | fuel + 1, c :: t =>
    match matchProp (c :: t) with
    | some (m, r) => m :: scanProps fuel r
    | none => scanProps fuel t

/-- `extractAtomicPropositions` (src/exe2.cpp lines 11-22). -/
def extractAtomicPropositions (stlFormula : String) : List String :=
  (scanProps stlFormula.toList.length stlFormula.toList).map String.mk

/-- `true` iff the proposition regex matches at some position of `s`
(i.e. `s` contains a substring matching `\w+\s*[<>]=?\s*[\d\.]+`). -/
def hasPropMatch : List Char → Bool
  | [] => false
  | c :: t => (matchProp (c :: t)).isSome || hasPropMatch t

theorem scanProps_nil_iff (fuel : Nat) (s : List Char) (h : s.length ≤ fuel) :
    scanProps fuel s = [] ↔ hasPropMatch s = false := by
  induction fuel generalizing s with
  | zero =>
    cases s with
    | nil => simp [scanProps, hasPropMatch]
    | cons c t => simp at h
  | succ fuel ih =>
    cases s with
    | nil => simp [scanProps, hasPropMatch]
    | cons c t =>
      simp only [scanProps, hasPropMatch]
      cases hm : matchProp (c :: t) with
      | some pr => simp [hm]
      | none =>
        have ht : t.length ≤ fuel := by
          simpa using Nat.le_of_succ_le_succ h
        simp [hm, ih t ht]

/-! ### The proposition map (src/exe2.cpp lines 129-132)

`std::map<std::string, std::string>` is modelled as an association list
kept sorted by key under the lexicographic order of `std::string`'s
`operator<` (for the ASCII keys produced by extraction this coincides with
comparing Lean characters).  `propMap[key] = value` inserts or overwrites. -/

/-- Lexicographic order on character lists: `std::string operator<`. -/
def strLt : List Char → List Char → Bool
  | [], [] => false
  | [], _ :: _ => true
  | _ :: _, [] => false
  | a :: as, b :: bs => if a = b then strLt as bs else decide (a.toNat < b.toNat)

/-- `std::string operator<` on Lean strings. -/
def strLtS (a b : String) : Bool :=
  strLt a.toList b.toList

/-- `m[k] = v` on the sorted association list: insert or overwrite. -/
def mapInsert (k v : String) : List (String × String) → List (String × String)
  | [] => [(k, v)]
  | (a, b) :: rest =>
    if strLtS k a then (k, v) :: (a, b) :: rest
    else if k = a then (k, v) :: rest
    else (a, b) :: mapInsert k v rest

/-- The loop of src/exe2.cpp lines 130-132: for each extracted proposition
(at running index `i`, 0-based) assign `propMap[prop] = "p" ++ toString (i+1)`. -/
def buildGo (i : Nat) (m : List (String × String)) : List String → List (String × String)
  | [] => m
  | k :: ks => buildGo (i + 1) (mapInsert k ("p" ++ toString (i + 1)) m) ks

/-- The proposition map built by `main` from the extracted propositions. -/
def buildPropMap (props : List String) : List (String × String) :=
  buildGo 0 [] props

/-- The proposition map `main` builds for a given input formula. -/
def propMapOf (stlFormula : String) : List (String × String) :=
  buildPropMap (extractAtomicPropositions stlFormula)

/-- Index of the last occurrence of `k` in a list (meaningful when `k` is a
member). -/
def lastPos (k : String) : List String → Nat
  | [] => 0
  | _ :: as => if k ∈ as then lastPos k as + 1 else 0

theorem lookup_cons (a b k' : String) (m : List (String × String)) :
    List.lookup k' ((a, b) :: m) = if k' = a then some b else List.lookup k' m := by
  by_cases h : k' = a
  · simp [List.lookup, h]
  · simp [List.lookup, h, beq_eq_false_iff_ne.mpr h]

theorem lookup_mapInsert (m : List (String × String)) (k v : String) (k' : String) :
    List.lookup k' (mapInsert k v m) =
      if k' = k then some v else List.lookup k' m := by
  induction m with
  | nil =>
    simp only [mapInsert, lookup_cons]
  | cons ab rest ih =>
    obtain ⟨a, b⟩ := ab
    simp only [mapInsert]
    by_cases hlt : strLtS k a
    · rw [if_pos hlt, lookup_cons]
    · rw [if_neg hlt]
      by_cases hka : k = a
      · subst hka
        rw [if_pos rfl, lookup_cons, lookup_cons]
        by_cases h : k' = k <;> simp [h]
      · rw [if_neg hka, lookup_cons, lookup_cons, ih]
        by_cases h : k' = a
        · subst h
          have hkk : ¬ k' = k := fun hc => hka hc.symm
          simp [hkk]
        · simp [h]

theorem lookup_buildGo (ks : List String) (i : Nat) (m : List (String × String))
    (k : String) :
    List.lookup k (buildGo i m ks) =
      if k ∈ ks then some ("p" ++ toString (i + lastPos k ks + 1))
      else List.lookup k m := by
  induction ks generalizing i m with
  | nil => simp [buildGo]
  | cons a as ih =>
    simp only [buildGo]
    rw [ih]
    by_cases has : k ∈ as
    · have hmem : k ∈ a :: as := List.mem_cons_of_mem a has
      have hlp : lastPos k (a :: as) = lastPos k as + 1 := by
        simp [lastPos, has]
      rw [if_pos has, if_pos hmem, hlp]
      have : i + 1 + lastPos k as + 1 = i + (lastPos k as + 1) + 1 := by omega
      rw [this]
    · rw [if_neg has, lookup_mapInsert]
      by_cases hka : k = a
      · subst hka
        have hmem : k ∈ k :: as := List.mem_cons_self k as
        have hlp : lastPos k (k :: as) = 0 := by simp [lastPos, has]
        simp [hmem, hlp]
      · have hmem : ¬ k ∈ a :: as := by
          simp [List.mem_cons, hka, has]
        simp [hka, hmem]

theorem lookup_buildPropMap (props : List String) (k : String) (h : k ∈ props) :
    List.lookup k (buildPropMap props) =
      some ("p" ++ toString (lastPos k props + 1)) := by
  rw [buildPropMap, lookup_buildGo, if_pos h, Nat.zero_add]

/-! ### `replaceAtomicProps` (src/exe2.cpp lines 25-31)

For each map entry `(text, name)`, in ascending key order, the source runs
`std::regex_replace(formula, std::regex("\b" + text + "\b"), name)`.  The
proposition text is used *unescaped* as a pattern: among the characters a
proposition can contain, `.` is an ECMAScript metacharacter matching any
single character other than a line terminator, while the rest are literals.
The pattern has fixed length, so matching is deterministic. -/

/-- One pattern character against one text character: `.` is a wildcard
(matching anything but a line terminator), everything else is literal. -/
def wildMatches (p c : Char) : Bool :=
  if p = '.' then !(c == '\n' || c == '\r') else p == c

/-- Match an (unescaped) proposition text as a pattern at the head of `s`;
returns `(matched text, rest)`. -/
def matchKey : List Char → List Char → Option (List Char × List Char)
  | [], s => some ([], s)
  | _ :: _, [] => none
  | p :: ps, c :: cs =>
    if wildMatches p c then
      (matchKey ps cs).map (fun pr => (c :: pr.1, pr.2))
    else none

/-- Is the optional character a word character (`none` = string edge)? -/
def wordB : Option Char → Bool
  | some c => isWordChar c
  | none => false

/-- ECMAScript `\b`: the two sides disagree on word-character-ness. -/
def hasBoundary (l r : Option Char) : Bool :=
  wordB l != wordB r

/-- The scan of `std::regex_replace` for pattern `\b<key>\b`, replacement
`repl`: every non-overlapping leftmost match surrounded by word boundaries
is replaced.  `prev` is the character preceding the current position; fuel
is instantiated with the length of the text. -/
def replaceKeyGo (key repl : List Char) : Nat → Option Char → List Char → List Char
  | 0, _, s => s
  | _ + 1, _, [] => []
  | fuel + 1, prev, c :: t =>
    match matchKey key (c :: t) with
    | some (m, rest) =>
      let endPrev : Option Char :=
        match m.getLast? with
        | some d => some d
        | none => prev
      if hasBoundary prev (some c) && hasBoundary endPrev rest.head? then
        repl ++ replaceKeyGo key repl fuel endPrev rest
      else c :: replaceKeyGo key repl fuel (some c) t
    | none => c :: replaceKeyGo key repl fuel (some c) t

/-- `std::regex_replace(s, std::regex("\b" + key + "\b"), repl)`. -/
def regexReplaceKey (key repl s : List Char) : List Char :=
  replaceKeyGo key repl s.length none s

/-- `replaceAtomicProps` (src/exe2.cpp lines 25-31): fold the substitutions
over the map entries in ascending key order. -/
def replaceAtomicProps (stlFormula : String) (propMap : List (String × String)) : String :=
  String.mk (propMap.foldl
    (fun s kv => regexReplaceKey kv.1.toList kv.2.toList s) stlFormula.toList)

/-! ### `synthesizeSignal` (src/exe2.cpp lines 50-64)

The C++ loop `for (double t = 0; t <= T; t += 0.1)` is modelled with exact
rationals: sample `k` has time `k / 10`, and the loop runs while
`k / 10 ≤ T`, i.e. for `0 ≤ k ≤ ⌊10 T⌋`.  (The C++ `double` accumulation
produces the same Boolean value at every sample and the same rounded
partition points, since the accumulated error never bridges a 0.1 step.) -/

/-- `⌊q⌋` computed on the representation (denominator is positive). -/
def ratFloorZ (q : ℚ) : ℤ :=
  Int.fdiv q.num q.den

/-- Truncation toward zero, the semantics of C++ `static_cast<int>(double)`. -/
def ratTrunc (q : ℚ) : ℤ :=
  Int.tdiv q.num q.den

/-- C++ `std::round`: round half away from zero. -/
def roundHalfAway (q : ℚ) : ℤ :=
  if 0 ≤ q then ratFloorZ (q + 1/2) else -(ratFloorZ (-q + 1/2))

/-- `y(t) = t < 10` (src/exe2.cpp line 54). -/
def sigY (t : ℚ) : Bool := decide (t < 10)

/-- `z(t) = 5 ≤ t < 15` (src/exe2.cpp line 55). -/
def sigZ (t : ℚ) : Bool := decide (5 ≤ t) && decide (t < 15)

/-- `x(t) = 8 ≤ t < 20` (src/exe2.cpp line 56). -/
def sigX (t : ℚ) : Bool := decide (8 ≤ t) && decide (t < 20)

/-- `synthesizeSignal` (src/exe2.cpp lines 50-64). -/
def synthesizeSignal (T : ℚ) : List (ℚ × List Bool) :=
  (List.range (ratFloorZ (10 * T) + 1).toNat).map
    (fun k => ((k : ℚ) / 10, [sigY ((k : ℚ) / 10), sigZ ((k : ℚ) / 10), sigX ((k : ℚ) / 10)]))

/-! ### `constructStablePartitions` (src/exe2.cpp lines 67-78)

`std::set<int>` is modelled as an ascending duplicate-free `List ℤ` with
ordered insertion. -/

/-- `std::set<int>::insert`. -/
def setInsert (x : ℤ) : List ℤ → List ℤ
  | [] => [x]
  | y :: ys =>
    if x < y then x :: y :: ys
    else if x = y then y :: ys
    else y :: setInsert x ys

/-- The loop of src/exe2.cpp lines 71-75: insert the rounded time of every
sample whose Boolean vector differs from its predecessor's. -/
def stableGo (prev : ℚ × List Bool) (acc : List ℤ) : List (ℚ × List Bool) → List ℤ
  | [] => acc
  | s :: rest =>
    stableGo s (if s.2 ≠ prev.2 then setInsert (roundHalfAway s.1) acc else acc) rest

/-- `constructStablePartitions` (src/exe2.cpp lines 67-78). -/
def constructStablePartitions (signal : List (ℚ × List Bool)) : List ℤ :=
  match signal with
  | [] => []
  | s0 :: rest => stableGo s0 [] rest

/-! ### `partitionTemporalOperators` (src/exe2.cpp lines 81-113)

The fixed pattern `\bG\s*\[\s*([\d\.]+)\s*,\s*([\d\.]+)\s*\]\s*\(\(p2\)\s*U\s*\(p3\)\)`
is embedded as a deterministic scanner (`matchGBody`), used once by
`regex_search` (first match, to read the two bounds) and then by
`regex_replace` (which replaces **every** match with the same replacement
string computed from the first match's bounds).  The bounds go through
`std::stod` — which throws `std::invalid_argument` when the captured text
contains no digit (e.g. `"."`), an exception `main` never catches — and are
then truncated toward zero by `static_cast<int>`. -/

/-- Skip `\s*`. -/
def eatSpaces (s : List Char) : List Char :=
  s.dropWhile isSpaceChar

/-- Expect one literal character. -/
def expectChar (c : Char) : List Char → Option (List Char)
  | [] => none
  | d :: r => if d = c then some r else none

/-- Expect a literal character sequence. -/
def expectLit : List Char → List Char → Option (List Char)
  | [], s => some s
  | _ :: _, [] => none
  | p :: ps, c :: cs => if c = p then expectLit ps cs else none

/-- `[\d\.]+` (greedy, at least one character). -/
def takeNum (s : List Char) : Option (List Char × List Char) :=
  let n := s.takeWhile isDigitDot
  if n.isEmpty then none else some (n, s.dropWhile isDigitDot)

/-- Anchored match of the `G`-pattern (everything after the leading `\b`):
returns the two captured bound texts and the rest of the input. -/
def matchGBody (s : List Char) : Option (List Char × List Char × List Char) := do
  let r ← expectChar 'G' s
  let r := eatSpaces r
  let r ← expectChar '[' r
  let r := eatSpaces r
  let (n1, r) ← takeNum r
  let r := eatSpaces r
  let r ← expectChar ',' r
  let r := eatSpaces r
  let (n2, r) ← takeNum r
  let r := eatSpaces r
  let r ← expectChar ']' r
  let r := eatSpaces r
  let r ← expectLit "((p2)".toList r
  let r := eatSpaces r
  let r ← expectChar 'U' r
  let r := eatSpaces r
  let r ← expectLit "(p3))".toList r
  some (n1, n2, r)

/-- `std::regex_search` for the `G`-pattern: first match, left to right.
The leading `\b` reduces to "the preceding character is not a word
character", since the pattern starts with the word character `G`. -/
def searchGo : Nat → Option Char → List Char → Option (List Char × List Char)
  | 0, _, _ => none
  | _ + 1, _, [] => none
  | fuel + 1, prev, c :: t =>
    match (if wordB prev then none else matchGBody (c :: t)) with
    | some (n1, n2, _) => some (n1, n2)
    | none => searchGo fuel (some c) t

/-- `std::regex_replace` for the `G`-pattern: replace every non-overlapping
match (each matched text ends in `)`, the `prev` passed on). -/
def replaceGo (repl : List Char) : Nat → Option Char → List Char → List Char
  | 0, _, s => s
  | _ + 1, _, [] => []
  | fuel + 1, prev, c :: t =>
    match (if wordB prev then none else matchGBody (c :: t)) with
    | some (_, _, rest) => repl ++ replaceGo repl fuel (some ')') rest
    | none => c :: replaceGo repl fuel (some c) t

/-- `std::stod` on a `[\d\.]+` capture: integer digits, optionally a dot and
fraction digits; at least one digit must be consumed, otherwise
`std::invalid_argument` is thrown (`none`). -/
def digitsToNat (ds : List Char) : Nat :=
  ds.foldl (fun n c => 10 * n + (c.toNat - 48)) 0

/-- Does `std::stod` return normally on the exact non-negative value
`num / den` (`den ≠ 0`)?  libstdc++ turns `strtod`'s range errors into
`std::out_of_range`; under IEEE-754 binary64 round-to-nearest-even with
after-rounding tininess detection (glibc on x86-64):
* overflow: a value `≥ 2^1024 − 2^970` rounds to infinity (the halfway
  point above `DBL_MAX = 2^1024 − 2^971` resolves to the even `2^1024`),
  so `stod` throws;
* underflow: a nonzero value `< 2^-1022 − 2^-1075` that is not an exact
  multiple of `2^-1074` rounds to an inexact subnormal or to zero, so
  `stod` throws; zero, an exact subnormal, and any value `≥ 2^-1022 −
  2^-1075` (which rounds into the normal range) are returned normally. -/
def stodInRange (num den : Nat) : Bool :=
  decide (num < den * (2 ^ 1024 - 2 ^ 970)) &&
  (decide (num = 0) ||
   decide (den * (2 ^ 53 - 1) ≤ num * 2 ^ 1075) ||
   decide (num * 2 ^ 1074 % den = 0))

/-- See `digitsToNat` and `stodInRange`; `parseStod` models `std::stod` on
`[\d\.]+` text.  The value `ip.fp` is the rational
`(ip * 10 ^ |fp| + fp) / 10 ^ |fp|`; a value `std::stod` reports as out of
the `double` range is `none`, and a finite returned value is kept exact
(its rounding to the nearest `double` is not modelled). -/
def parseStod (s : List Char) : Option ℚ :=
  let ip := s.takeWhile isDigitChar
  let r := s.dropWhile isDigitChar
  match r with
  | '.' :: r2 =>
    let fp := r2.takeWhile isDigitChar
    if ip.isEmpty && fp.isEmpty then none
    else
      let num := digitsToNat ip * 10 ^ fp.length + digitsToNat fp
      let den := 10 ^ fp.length
      if stodInRange num den then some (mkRat num den) else none
  | _ =>
    if ip.isEmpty then none
    else if stodInRange (digitsToNat ip) 1 then some (mkRat (digitsToNat ip) 1)
    else none

/-- One conjunct `G [lo, hi] ((p2) U (p3)) ` of the replacement. -/
def conjunct (lo hi : ℤ) : String :=
  "G [" ++ toString lo ++ ", " ++ toString hi ++ "] ((p2) U (p3)) "

/-- `std::set::lower_bound a` on the ascending list. -/
def lowerBound (a : ℤ) : List ℤ → List ℤ
  | [] => []
  | t :: ts => if t < a then lowerBound a ts else t :: ts

/-- The replacement-building loop of src/exe2.cpp lines 92-107: walk the
partition points `≤ b` in ascending order, emitting a conjunct per point and
advancing `prev` to the point plus 1; then a final conjunct if `prev ≤ b`. -/
def partLoop (b : ℤ) : ℤ → List ℤ → String
  | prev, [] => if prev ≤ b then conjunct prev b else ""
  | prev, t :: ts =>
    if t ≤ b then
      (if prev ≤ t then conjunct prev t ++ (if t < b then "∧ " else "") else "")
        ++ partLoop b (t + 1) ts
    else if prev ≤ b then conjunct prev b else ""

/-- `partitionTemporalOperators` (src/exe2.cpp lines 81-113).  `none`
models the uncaught `std::stod` exception, which aborts the process;
`some` is the returned string. -/
def partitionTemporalOperators (mitlFormula : String) (partitionPoints : List ℤ) :
    Option String :=
  match searchGo mitlFormula.toList.length none mitlFormula.toList with
  | none => some mitlFormula
  | some (n1, n2) =>
    match parseStod n1, parseStod n2 with
    | some qa, some qb =>
      let a := ratTrunc qa
      let b := ratTrunc qb
      let repl := partLoop b a (lowerBound a partitionPoints)
      some (String.mk
        (replaceGo repl.toList mitlFormula.toList.length none mitlFormula.toList))
    | _, _ => none

/-! ### `writeMITLToFile` (src/exe2.cpp lines 34-47)

`filename.find(".mitl") == std::string::npos` is an *anywhere-substring*
check; when it fails to find `.mitl`, the extension is appended.  On an
open failure an error is reported on the diagnostic stream; the function
returns normally either way. -/

/-- Does `s` start with `pat`? -/
def startsWithCl : List Char → List Char → Bool
  | [], _ => true
  | _ :: _, [] => false
  | p :: ps, c :: cs => p == c && startsWithCl ps cs

/-- `hay.find(needle) != npos`: does `needle` occur anywhere in `hay`? -/
def containsSub (needle : List Char) : List Char → Bool
  | [] => startsWithCl needle []
  | c :: t => startsWithCl needle (c :: t) || containsSub needle t

/-- The output-file name chosen by `writeMITLToFile` (src/exe2.cpp
lines 35-37). -/
def mitlFileName (filename : String) : String :=
  if containsSub ".mitl".toList filename.toList then filename
  else filename ++ ".mitl"

/-- `writeMITLToFile` (src/exe2.cpp lines 34-47): returns the name of the
file written to and whether the error message was printed to the
diagnostic stream (exactly when the open failed). -/
def writeMITLToFile (filename : String) (openOk : Bool) : String × Bool :=
  (mitlFileName filename, !openOk)

theorem startsWithCl_iff (n : List Char) :
    ∀ h : List Char, startsWithCl n h = true ↔ ∃ r, h = n ++ r := by
  induction n with
  | nil =>
    intro h
    simp [startsWithCl]
  | cons p ps ih =>
    intro h
    cases h with
    | nil =>
      simp [startsWithCl]
    | cons c cs =>
      simp only [startsWithCl, Bool.and_eq_true, beq_iff_eq, ih]
      constructor
      · rintro ⟨rfl, r, rfl⟩
        exact ⟨r, rfl⟩
      · rintro ⟨r, hr⟩
        cases hr
        exact ⟨rfl, r, rfl⟩

theorem containsSub_iff (n : List Char) :
    ∀ h : List Char, containsSub n h = true ↔ ∃ p q, h = p ++ n ++ q := by
  intro h
  induction h with
  | nil =>
    simp only [containsSub, startsWithCl_iff]
    constructor
    · rintro ⟨r, hr⟩
      exact ⟨[], r, by simpa using hr⟩
    · rintro ⟨p, q, hpq⟩
      have hp : p = [] := by
        cases p with
        | nil => rfl
        | cons a as => simp at hpq
      subst hp
      exact ⟨q, by simpa using hpq⟩
  | cons c t ih =>
    simp only [containsSub, Bool.or_eq_true, startsWithCl_iff, ih]
    constructor
    · rintro (⟨r, hr⟩ | ⟨p, q, hpq⟩)
      · exact ⟨[], r, by simpa using hr⟩
      · exact ⟨c :: p, q, by simp [hpq]⟩
    · rintro ⟨p, q, hpq⟩
      cases p with
      | nil =>
        exact Or.inl ⟨q, by simpa using hpq⟩
      | cons a as =>
        simp only [List.cons_append, List.cons.injEq] at hpq
        exact Or.inr ⟨as, q, hpq.2⟩

/-! ### `main` (src/exe2.cpp lines 115-173)

`main` reads the formula, extracts propositions, builds the map,
synthesizes the fixed signal (`T = 30`), computes the partition points,
renames, partitions, and writes the file — then `return 0`.  The only way
the process can terminate abnormally is the uncaught `std::stod` exception
inside `partitionTemporalOperators`; a file-open failure only prints to the
diagnostic stream.  `mainRun` returns `some (exit status, error reported)`
for a normal exit and `none` for an abnormal termination. -/

/-- The MITL formula after the renaming step of `main` (line 156). -/
def mitlOf (stlFormula : String) : String :=
  replaceAtomicProps stlFormula (propMapOf stlFormula)

/-- The partition points `main` computes (lines 140-149). -/
def pts30 : List ℤ :=
  constructStablePartitions (synthesizeSignal 30)

/-- Both bounds of the first `G`-pattern match (if any) are accepted by
`std::stod`. -/
def stodBoundsOk (mitl : String) : Bool :=
  match searchGo mitl.toList.length none mitl.toList with
  | none => true
  | some (n1, n2) => (parseStod n1).isSome && (parseStod n2).isSome

/-- `main` (src/exe2.cpp lines 115-173): the console inputs are the formula
and the filename token; `openOk` is whether opening the output file
succeeds. -/
def mainRun (stlFormula filename : String) (openOk : Bool) : Option (Nat × Bool) :=
  match partitionTemporalOperators (mitlOf stlFormula) pts30 with
  | some _ => some (0, (writeMITLToFile filename openOk).2)
  | none => none

/-! ### Arithmetic facts about the bound conversion -/

theorem ratTrunc_eq_floor (q : ℚ) (h : 0 ≤ q) : ratTrunc q = ⌊q⌋ := by
  unfold ratTrunc
  rw [Rat.floor_def, Int.tdiv_eq_ediv (Rat.num_nonneg.mpr h) (by positivity)]

theorem parseStod_nonneg (s : List Char) (q : ℚ) (h : parseStod s = some q) :
    0 ≤ q := by
  unfold parseStod at h
  dsimp only at h
  split at h
  · split at h
    · exact absurd h (by simp)
    · split at h
      · obtain rfl := (Option.some.inj h).symm
        rw [Rat.mkRat_eq_div]
        positivity
      · exact absurd h (by simp)
  · split at h
    · exact absurd h (by simp)
    · split at h
      · obtain rfl := (Option.some.inj h).symm
        rw [Rat.mkRat_eq_div]
        positivity
      · exact absurd h (by simp)

/-! ### The claims -/

/-- C1 (counterexample).  The claim says that only the first occurrence of
the `G [a, b] ((p2) U (p3))` pattern is rewritten and every additional
occurrence is left character-for-character unchanged.  On the formula
`G [0, 3] ((p2) U (p3)) and G [4, 6] ((p2) U (p3))` with no partition
points, the second occurrence `G [4, 6] …` is *also* replaced (by the
replacement computed from the first match's bounds): the output no longer
contains `[4, 6]` at all. -/
theorem partitioner_second_occurrence_changed :
    partitionTemporalOperators "G [0, 3] ((p2) U (p3)) and G [4, 6] ((p2) U (p3))" []
      = some "G [0, 3] ((p2) U (p3))  and G [0, 3] ((p2) U (p3)) " ∧
    containsSub "[4, 6]".toList
      "G [0, 3] ((p2) U (p3))  and G [0, 3] ((p2) U (p3)) ".toList = false := by
  decide

/-- C1 (amended).  `std::regex_replace` (src/exe2.cpp line 109) replaces
*every* occurrence of the pattern with the replacement string computed from
the *first* match's bounds: with partition point 5, both `G [0, 9] …` and
`G [4, 6] …` become the expansion of `[0, 9]`. -/
theorem partitioner_rewrites_every_occurrence :
    partitionTemporalOperators
        "G [0, 9] ((p2) U (p3)) and G [4, 6] ((p2) U (p3))" [5]
      = some ("G [0, 5] ((p2) U (p3)) ∧ G [6, 9] ((p2) U (p3)) " ++ " and "
          ++ "G [0, 5] ((p2) U (p3)) ∧ G [6, 9] ((p2) U (p3)) ") := by
  decide

/-- C2 (counterexample).  The claim says map iteration order (lexicographic)
determines the names, so `p1` would be bound to the lexicographically
smallest proposition text.  For input `"z < 2 and a > 1"` the
lexicographically smallest key `"a > 1"` is bound to `"p2"`, not `"p1"`. -/
theorem p1_not_bound_to_lex_smallest :
    strLtS "a > 1" "z < 2" = true ∧
    List.lookup "a > 1" (propMapOf "z < 2 and a > 1") = some "p2" ∧
    List.lookup "a > 1" (propMapOf "z < 2 and a > 1") ≠ some "p1" := by
  decide

/-- C2 (amended).  The generated names `p1, p2, …` are assigned by
*extraction index* (`p(i+1)` for the proposition extracted at 0-based
position `i`, src/exe2.cpp lines 130-132); the map's lexicographic iteration
order plays no role in the assignment.  For `"z < 2 and a > 1"` — whose
extraction order differs from its lexicographic order — the first-extracted
`"z < 2"` gets `p1` and `"a > 1"` gets `p2`. -/
theorem names_follow_extraction_order :
    extractAtomicPropositions "z < 2 and a > 1" = ["z < 2", "a > 1"] ∧
    List.lookup "z < 2" (propMapOf "z < 2 and a > 1") = some "p1" ∧
    List.lookup "a > 1" (propMapOf "z < 2 and a > 1") = some "p2" := by
  decide

/-- C3.  On `"G [0, 20] ((p2) U (p3))"` with partition points
`{5, 8, 10, 15, 20}` the partitioner produces exactly the conjunction of
the five `G` sub-formulas over `[0,5] [6,8] [9,10] [11,15] [16,20]`,
joined by `∧`: each sub-interval start after the first is the preceding
partition point plus 1. -/
theorem partition_example_five_conjuncts :
    partitionTemporalOperators "G [0, 20] ((p2) U (p3))" [5, 8, 10, 15, 20]
      = some ("G [0, 5] ((p2) U (p3)) ∧ G [6, 8] ((p2) U (p3)) ∧ "
          ++ "G [9, 10] ((p2) U (p3)) ∧ G [11, 15] ((p2) U (p3)) ∧ "
          ++ "G [16, 20] ((p2) U (p3)) ") := by
  decide

/-- C4.  With horizon `T = 30` and 0.1 sampling, composing the signal
synthesizer (predicates `y = t < 10`, `z = 5 ≤ t < 15`, `x = 8 ≤ t < 20`)
with the partition-point constructor (insert the rounded time of each
sample whose Boolean 3-tuple differs from its predecessor's) yields exactly
the ascending duplicate-free set `{5, 8, 10, 15, 20}`. -/
theorem partition_points_of_example_signal :
    constructStablePartitions (synthesizeSignal 30) = [5, 8, 10, 15, 20] := by
  with_unfolding_all decide

/-- C5.  The renamer does not escape regex metacharacters: in a pattern
built from a proposition text, `.` matches any single character (except a
line terminator), so with map entry `x >= 0.3 ↦ p1` the substring
`x >= 0a3` — differing from the proposition text only at the `.` position —
is also replaced. -/
theorem dot_is_wildcard_in_substitution :
    (∀ c : Char, wildMatches '.' c = !(c == '\n' || c == '\r')) ∧
    replaceAtomicProps "x >= 0.3 and x >= 0a3" [("x >= 0.3", "p1")]
      = "p1 and p1" := by
  exact ⟨fun c => rfl, by decide⟩

/-- C6.  The extractor is order-preserving and non-deduplicating
(`"y < 2 and y < 2"` yields two identical entries), and it returns the
empty list exactly for the inputs with no substring matching the
proposition pattern — in particular for the empty string — with no error
(the function is total). -/
theorem extractor_order_duplicates_empty :
    extractAtomicPropositions "" = [] ∧
    extractAtomicPropositions "y < 2 and y < 2" = ["y < 2", "y < 2"] ∧
    ∀ s : String, (extractAtomicPropositions s).isEmpty = !hasPropMatch s.toList := by
  refine ⟨by decide, by decide, fun s => ?_⟩
  have h := scanProps_nil_iff s.toList.length s.toList (Nat.le_refl _)
  unfold extractAtomicPropositions
  cases hb : hasPropMatch s.toList with
  | false =>
    rw [h.mpr hb]
    rfl
  | true =>
    cases hsc : scanProps s.toList.length s.toList with
    | nil =>
      have hf := h.mp hsc
      rw [hf] at hb
      cases hb
    | cons a t => rfl

/-- C7.  The file writer appends `.mitl` exactly when `.mitl` does not
occur anywhere as a substring of the given name (a substring check, not a
suffix check): `"result"` becomes `"result.mitl"`, while `"result.mitl"`
and `"data.mitl.bak"` are unchanged; in general the name is left unchanged
iff it decomposes as `p ++ ".mitl" ++ q`. -/
theorem mitl_extension_substring_check :
    mitlFileName "result" = "result.mitl" ∧
    mitlFileName "result.mitl" = "result.mitl" ∧
    mitlFileName "data.mitl.bak" = "data.mitl.bak" ∧
    ∀ n : String, (mitlFileName n = n ↔ ∃ p q, n.toList = p ++ ".mitl".toList ++ q) := by
  refine ⟨by decide, by decide, by decide, fun n => ?_⟩
  unfold mitlFileName
  by_cases hc : containsSub ".mitl".toList n.toList = true
  · rw [if_pos hc]
    exact ⟨fun _ => (containsSub_iff _ _).mp hc, fun _ => rfl⟩
  · rw [if_neg hc]
    constructor
    · intro he
      have hlen := congrArg String.length he
      rw [String.length_append] at hlen
      have h5 : (".mitl" : String).length = 5 := rfl
      omega
    · rintro ⟨p, q, hpq⟩
      exact absurd ((containsSub_iff _ _).mpr ⟨p, q, hpq⟩) hc

/-- Witness for C7: a name containing `.mitl` strictly inside (not as a
suffix) is left unchanged. -/
theorem mitl_extension_substring_check_witness :
    mitlFileName "x.mitly" = "x.mitly" :=
  (mitl_extension_substring_check.2.2.2 "x.mitly").mpr
    ⟨"x".toList, "y".toList, by decide⟩

/-- C8 (counterexample).  The claim says the process exits with status 0
for every input.  On the formula `G [., 0] ((p2) U (p3))` the partitioner's
first match captures the bound `"."` and `std::stod` throws
`std::invalid_argument`; on a bound of 310 nines (value above the `double`
overflow threshold) it throws `std::out_of_range`.  `main` catches neither,
so on both inputs the process is terminated abnormally (it does not exit
with status 0). -/
theorem stod_crash_abnormal_termination :
    mainRun "G [., 0] ((p2) U (p3))" "out" true = none ∧
    mainRun (String.mk ('G' :: ' ' :: '[' ::
        (List.replicate 310 '9' ++ ", 0] ((p2) U (p3))".toList))) "out" true = none := by
  refine ⟨by decide, by decide⟩

/-- C8 (amended).  For every input on which the bound conversion succeeds
(both captured bounds of the first pattern match, if any, are accepted by
`std::stod`: each contains a digit and its value is inside the `double`
range per `stodInRange`), the process exits with status 0 — an output-file
open failure is reported on the diagnostic stream but does not change the
exit status, and no other exit code exists on these runs. -/
theorem exit_zero_when_stod_succeeds (stlFormula filename : String) (openOk : Bool)
    (h : stodBoundsOk (mitlOf stlFormula) = true) :
    mainRun stlFormula filename openOk = some (0, !openOk) := by
  unfold mainRun partitionTemporalOperators
  unfold stodBoundsOk at h
  cases hs : searchGo (mitlOf stlFormula).toList.length none (mitlOf stlFormula).toList with
  | none => rfl
  | some nn =>
    obtain ⟨n1, n2⟩ := nn
    rw [hs] at h
    cases h1 : parseStod n1 with
    | none => simp [h1] at h
    | some qa =>
      cases h2 : parseStod n2 with
      | none => simp [h1, h2] at h
      | some qb => simp [h1, h2, writeMITLToFile]

/-- Witness for C8: a run with a failing file open still exits 0, with the
error reported. -/
theorem exit_zero_when_stod_succeeds_witness :
    mainRun "y < 2" "out" false = some (0, !false) :=
  exit_zero_when_stod_succeeds "y < 2" "out" false (by decide)

/-- C9.  When the same proposition text occurs at several extraction
positions, `propMap[text] = "p" ++ toString (i+1)` is executed once per
position and the last assignment wins: in general the map binds each
extracted text to the name formed from its *last* occurrence index, and for
`"y < 2 and y < 2"` the map is exactly `{"y < 2" ↦ "p2"}` — `p1` is never
bound and the generated names are not contiguous. -/
theorem propmap_last_occurrence_wins :
    (∀ (props : List String) (k : String), k ∈ props →
      List.lookup k (buildPropMap props) = some ("p" ++ toString (lastPos k props + 1))) ∧
    propMapOf "y < 2 and y < 2" = [("y < 2", "p2")] ∧
    List.lookup "y < 2" (propMapOf "y < 2 and y < 2") ≠ some "p1" := by
  refine ⟨lookup_buildPropMap, by decide, by decide⟩

/-- Witness for C9: on the duplicate list `["a", "a"]` the single key is
bound to the name from its last index. -/
theorem propmap_last_occurrence_wins_witness :
    List.lookup "a" (buildPropMap ["a", "a"])
      = some ("p" ++ toString (lastPos "a" ["a", "a"] + 1)) :=
  propmap_last_occurrence_wins.1 ["a", "a"] "a" (by decide)

/-- C10.  Every numeric bound accepted by `std::stod` is non-negative (the
capture is `[\d\.]+`), and `static_cast<int>` truncates it toward zero —
which on non-negative values is the floor; concretely, the bounds
`[0.5, 20.9]` are processed exactly like `[0, 20]`, and every emitted
interval boundary is printed as an integer. -/
theorem bounds_truncated_toward_zero :
    (∀ (s : List Char) (q : ℚ), parseStod s = some q → 0 ≤ q ∧ ratTrunc q = ⌊q⌋) ∧
    partitionTemporalOperators "G [0.5, 20.9] ((p2) U (p3))" [5, 8, 10, 15, 20]
      = partitionTemporalOperators "G [0, 20] ((p2) U (p3))" [5, 8, 10, 15, 20] ∧
    partitionTemporalOperators "G [0.5, 20.9] ((p2) U (p3))" [5, 8, 10, 15, 20]
      = some ("G [0, 5] ((p2) U (p3)) ∧ G [6, 8] ((p2) U (p3)) ∧ "
          ++ "G [9, 10] ((p2) U (p3)) ∧ G [11, 15] ((p2) U (p3)) ∧ "
          ++ "G [16, 20] ((p2) U (p3)) ") := by
  refine ⟨fun s q h => ?_, by decide, by decide⟩
  have h0 := parseStod_nonneg s q h
  exact ⟨h0, ratTrunc_eq_floor q h0⟩

/-- Witness for C10: the parsed bound `"0.5"` is non-negative and truncates
to its floor. -/
theorem bounds_truncated_toward_zero_witness :
    0 ≤ (1 / 2 : ℚ) ∧ ratTrunc (1 / 2) = ⌊(1 / 2 : ℚ)⌋ :=
  bounds_truncated_toward_zero.1 "0.5".toList (1 / 2) (by with_unfolding_all decide)

end Stl2Mtl
